import Mathlib

/-!
Verification of the salus hypervisor core against its natural-language
specification.  The definitions below are shallow embeddings of the Rust
sources: `u-mode-api/src/lib.rs` (hypcall / request codec),
`src/hyp_map.rs` (hypervisor page table, U-mode slots, private-region
restore), `riscv-elf/src/lib.rs` (ELF loader) and
`riscv-page-tables/src/page_tracking.rs` (page tracker and bootstrap
allocator).  Machine integers (`u64`, `usize` on RV64) are embedded as
`Nat` with explicit reduction modulo `2 ^ 64` wherever the Rust code can
wrap.
-/

namespace Salus

/-- `2 ^ 64`, the modulus of `u64` arithmetic. -/
def W64 : Nat := 2 ^ 64

/-- Truncation of a natural number to a `u64` value. -/
def w64 (n : Nat) : Nat := n % W64

/-- Rust `Result` values as returned by the fallible salus functions. -/
inductive RResult (ε : Type) (α : Type) where
  | ok (a : α)
  | err (e : ε)
deriving DecidableEq, Repr

instance : Monad (RResult ε) where
  pure := .ok
  bind r f := match r with
    | .ok a => f a
    | .err e => .err e

/-- Conversion of a `Result` into an `Option`, dropping the error
(models `.ok()` / the success case of `.unwrap()`). -/
def RResult.toOption : RResult ε α → Option α
  | .ok a => some a
  | .err _ => none

/-! ## U-mode API codec (`u-mode-api/src/lib.rs`) -/

/-- `enum Error` of the U-mode API. -/
inductive UError where
  | failed
  | invalidArgument
  | ecallNotSupported
  | requestNotSupported
deriving DecidableEq, Repr

/-- The numeric code of a U-mode API error (`Error` is `repr(u64)`
with discriminants 1..4). -/
def UError.code : UError → Nat
  | .failed => 1
  | .invalidArgument => 2
  | .ecallNotSupported => 3
  | .requestNotSupported => 4

/-- `impl From<u64> for Error`: 1..4 map to the four errors, anything
else falls back to `Failed`. -/
def UError.fromNat (val : Nat) : UError :=
  if val = 1 then .failed
  else if val = 2 then .invalidArgument
  else if val = 3 then .ecallNotSupported
  else if val = 4 then .requestNotSupported
  else .failed

/-- `enum UmodeOp`, the operations the hypervisor can request. -/
inductive UmodeOp where
  | nop
  | printString
  | memCopy
  | getEvidence
deriving DecidableEq, Repr

/-- The `repr(u64)` discriminant of a `UmodeOp` (`Nop = 1`,
`PrintString = 2`, `MemCopy = 3`, `GetEvidence = 4`). -/
def UmodeOp.tag : UmodeOp → Nat
  | .nop => 1
  | .printString => 2
  | .memCopy => 3
  | .getEvidence => 4

/-- `impl TryFrom<u64> for UmodeOp`. -/
def UmodeOp.tryFromNat (reg : Nat) : RResult UError UmodeOp :=
  if reg = 1 then .ok .nop
  else if reg = 2 then .ok .printString
  else if reg = 3 then .ok .memCopy
  else if reg = 4 then .ok .getEvidence
  else .err .requestNotSupported

/-- `struct UmodeRequest`: an operation requested by the hypervisor and
executed by U-mode. -/
structure UmodeRequest where
  op : UmodeOp
  in_addr : Option Nat
  in_len : Nat
  out_addr : Option Nat
  out_len : Nat
  state_addr : Option Nat
  state_len : Nat
deriving DecidableEq, Repr

/-- `UmodeRequest::nop`. -/
def UmodeRequest.nop : UmodeRequest :=
  { op := .nop, in_addr := none, in_len := 0, out_addr := none,
    out_len := 0, state_addr := none, state_len := 0 }

/-- `UmodeRequest::print_string(addr, len)`. -/
def UmodeRequest.print_string (addr len : Nat) : UmodeRequest :=
  { op := .printString, in_addr := some addr, in_len := len,
    out_addr := none, out_len := 0, state_addr := none, state_len := 0 }

/-- `UmodeRequest::memcopy(out_addr, in_addr, len)`.  The overlap test
`max(out_addr, in_addr) <= min(out_addr + len - 1, in_addr + len - 1)`
is computed in wrapping `u64` arithmetic, exactly as the release-mode
Rust code does. -/
def UmodeRequest.memcopy (out_addr in_addr len : Nat) : Option UmodeRequest :=
  let overlap :=
    max out_addr in_addr ≤
      min (w64 (w64 (out_addr + len) + W64 - 1)) (w64 (w64 (in_addr + len) + W64 - 1))
  if overlap then
    none
  else
    some { op := .memCopy, in_addr := some in_addr, in_len := len,
           out_addr := some out_addr, out_len := len,
           state_addr := none, state_len := 0 }

/-- `UmodeRequest::get_evidence`. -/
def UmodeRequest.get_evidence (csr_addr csr_len certout_addr certout_len
    layer_state_addr layer_state_len : Nat) : UmodeRequest :=
  { op := .getEvidence, in_addr := some csr_addr, in_len := csr_len,
    out_addr := some certout_addr, out_len := certout_len,
    state_addr := some layer_state_addr, state_len := layer_state_len }

/-- The eight argument registers `a0..a7`, modelled as a list of eight
`u64` values. -/
def Regs0 : List Nat := List.replicate 8 0

/-- `impl TryIntoRegisters for UmodeRequest`, `to_registers`.  Absent
optional addresses are encoded as 0. -/
def UmodeRequest.to_registers (r : UmodeRequest) (regs : List Nat) : List Nat :=
  ((((((regs.set 0 r.op.tag).set 1 (r.in_addr.getD 0)).set 2 r.in_len).set 3
      (r.out_addr.getD 0)).set 4 r.out_len).set 5 (r.state_addr.getD 0)).set 6 r.state_len

/-- `impl TryIntoRegisters for UmodeRequest`, `try_from_registers`.
A zero register decodes an optional address as `None`. -/
def UmodeRequest.try_from_registers (regs : List Nat) : RResult UError UmodeRequest := do
  let op ← UmodeOp.tryFromNat (regs.getD 0 0)
  pure { op := op,
         in_addr := if regs.getD 1 0 = 0 then none else some (regs.getD 1 0),
         in_len := regs.getD 2 0,
         out_addr := if regs.getD 3 0 = 0 then none else some (regs.getD 3 0),
         out_len := regs.getD 4 0,
         state_addr := if regs.getD 5 0 = 0 then none else some (regs.getD 5 0),
         state_len := regs.getD 6 0 }

/-- `Result<(), Error>` as passed through registers by `NextOp`. -/
inductive UResult where
  | ok
  | err (e : UError)
deriving DecidableEq, Repr

/-- `impl IntoRegisters for Result<(), Error>`, `to_registers`:
`HYPC_SUCCESS = 0` on success, the error code otherwise. -/
def UResult.to_registers (r : UResult) (regs : List Nat) : List Nat :=
  match r with
  | .ok => regs.set 0 0
  | .err e => regs.set 0 e.code

/-- `impl IntoRegisters for Result<(), Error>`, `from_registers`. -/
def UResult.from_registers (regs : List Nat) : UResult :=
  if regs.getD 0 0 = 0 then .ok else .err (UError.fromNat (regs.getD 0 0))

/-- `enum HypCall`: calls from U-mode to the hypervisor. -/
inductive HypCall where
  | panic
  | putChar (b : Nat)
  | nextOp (r : UResult)
deriving DecidableEq, Repr

/-- `impl TryIntoRegisters for HypCall`, `to_registers`
(`HYPC_PANIC = 0`, `HYPC_PUTCHAR = 1`, `HYPC_NEXTOP = 2`; the tag goes
in `a7`). -/
def HypCall.to_registers (c : HypCall) (regs : List Nat) : List Nat :=
  match c with
  | .panic => regs.set 7 0
  | .putChar b => (regs.set 0 b).set 7 1
  | .nextOp r => (r.to_registers regs).set 7 2

/-- `impl TryIntoRegisters for HypCall`, `try_from_registers`.  The
`regs[0] as u8` cast of `PutChar` is the reduction modulo 256. -/
def HypCall.try_from_registers (regs : List Nat) : RResult UError HypCall :=
  if regs.getD 7 0 = 0 then .ok .panic
  else if regs.getD 7 0 = 1 then .ok (.putChar (regs.getD 0 0 % 256))
  else if regs.getD 7 0 = 2 then .ok (.nextOp (UResult.from_registers regs))
  else .err .ecallNotSupported

/-- Non-empty intersection of the byte ranges `[a, a + len)` and
`[b, b + len)`, as an arithmetic condition. -/
def rangesIntersect (a b len : Nat) : Prop :=
  max a b < min (a + len) (b + len)

instance (a b len : Nat) : Decidable (rangesIntersect a b len) := by
  unfold rangesIntersect; infer_instance

/-- `rangesIntersect` is exactly the existence of a byte index common to
the two ranges. -/
theorem rangesIntersect_iff (a b len : Nat) :
    rangesIntersect a b len ↔
      ∃ x, (a ≤ x ∧ x < a + len) ∧ (b ≤ x ∧ x < b + len) := by
  constructor
  · intro h
    exact ⟨max a b, by unfold rangesIntersect at h; omega, by unfold rangesIntersect at h; omega⟩
  · rintro ⟨x, ⟨h1, h2⟩, h3, h4⟩
    unfold rangesIntersect
    omega

/-- The numeral value of the `u64` modulus. -/
theorem W64_eq : W64 = 18446744073709551616 := by norm_num [W64]

theorem RResult.ok_bind (a : α) (f : α → RResult ε β) :
    (Bind.bind (RResult.ok a) f : RResult ε β) = f a := rfl

theorem RResult.err_bind (e : ε) (f : α → RResult ε β) :
    (Bind.bind (RResult.err e) f : RResult ε β) = RResult.err e := rfl

theorem RResult.pure_eq_ok (a : α) : (Pure.pure a : RResult ε α) = RResult.ok a := rfl

/-- C3 (amended): `UmodeRequest::memcopy` rejects exactly when the
wrapping-`u64` overlap test holds.  When `len > 0` and neither
`out_addr + len` nor `in_addr + len` exceeds `2 ^ 64`, this is precisely
intersection of the two byte ranges; for `len = 0`, a request is
produced unless both addresses are `0`, where the wrap-around of
`addr + len - 1` makes the test spuriously report an overlap. -/
theorem memcopy_overlap_characterization :
    (∀ o i len : Nat, 0 < len → o + len ≤ W64 → i + len ≤ W64 →
      (UmodeRequest.memcopy o i len = none ↔ rangesIntersect o i len)) ∧
    (∀ o i : Nat, o < W64 → i < W64 →
      (UmodeRequest.memcopy o i 0 = none ↔ (o = 0 ∧ i = 0))) := by
  constructor
  · intro o i len hlen ho hi
    rw [W64_eq] at ho hi
    simp only [UmodeRequest.memcopy, w64, W64_eq]
    split_ifs with h
    · exact iff_of_true rfl (by unfold rangesIntersect; omega)
    · exact iff_of_false (by simp) (by unfold rangesIntersect; omega)
  · intro o i ho hi
    rw [W64_eq] at ho hi
    simp only [UmodeRequest.memcopy, w64, W64_eq]
    split_ifs with h
    · exact iff_of_true rfl (by omega)
    · exact iff_of_false (by simp) (by omega)

/-- C3 counterexample: with `len = 0` and both addresses `0`, the byte
ranges are empty and do not intersect, yet `memcopy` returns `none`. -/
theorem memcopy_zero_len_counterexample :
    UmodeRequest.memcopy 0 0 0 = none ∧ ¬ rangesIntersect 0 0 0 := by decide

/-- Witness for the hypotheses of `memcopy_overlap_characterization`,
at the literal inputs of spec scenario 5 (`0x1000`, `0x1800`, `0x3000`,
`len = 0x1000`). -/
theorem memcopy_overlap_witness :
    (UmodeRequest.memcopy 4096 6144 4096 = none ↔ rangesIntersect 4096 6144 4096) ∧
    (UmodeRequest.memcopy 4096 12288 4096 = none ↔ rangesIntersect 4096 12288 4096) :=
  ⟨memcopy_overlap_characterization.1 4096 6144 4096 (by norm_num) (by norm_num [W64])
      (by norm_num [W64]),
   memcopy_overlap_characterization.1 4096 12288 4096 (by norm_num) (by norm_num [W64])
      (by norm_num [W64])⟩

/-- Well-formedness of a `HypCall` value: the `PutChar` payload is a
`u8`. -/
def HypCall.wf : HypCall → Prop
  | .putChar b => b < 256
  | _ => True

/-- Well-formedness of a `UmodeRequest` value: register-sized numeric
fields, and no present address field equal to `0` (the codec encodes
`None` as the register value `0`). -/
def UmodeRequest.wf (r : UmodeRequest) : Prop :=
  r.in_addr ≠ some 0 ∧ r.out_addr ≠ some 0 ∧ r.state_addr ≠ some 0 ∧
  r.in_addr.getD 0 < W64 ∧ r.out_addr.getD 0 < W64 ∧ r.state_addr.getD 0 < W64 ∧
  r.in_len < W64 ∧ r.out_len < W64 ∧ r.state_len < W64

theorem exists_eight (l : List Nat) (h : l.length = 8) :
    ∃ a0 a1 a2 a3 a4 a5 a6 a7, l = [a0, a1, a2, a3, a4, a5, a6, a7] := by
  obtain ⟨a0, l, rfl⟩ := List.exists_of_length_succ l h
  simp only [List.length_cons, Nat.succ_inj] at h
  obtain ⟨a1, l, rfl⟩ := List.exists_of_length_succ l h
  simp only [List.length_cons, Nat.succ_inj] at h
  obtain ⟨a2, l, rfl⟩ := List.exists_of_length_succ l h
  simp only [List.length_cons, Nat.succ_inj] at h
  obtain ⟨a3, l, rfl⟩ := List.exists_of_length_succ l h
  simp only [List.length_cons, Nat.succ_inj] at h
  obtain ⟨a4, l, rfl⟩ := List.exists_of_length_succ l h
  simp only [List.length_cons, Nat.succ_inj] at h
  obtain ⟨a5, l, rfl⟩ := List.exists_of_length_succ l h
  simp only [List.length_cons, Nat.succ_inj] at h
  obtain ⟨a6, l, rfl⟩ := List.exists_of_length_succ l h
  simp only [List.length_cons, Nat.succ_inj] at h
  obtain ⟨a7, l, rfl⟩ := List.exists_of_length_succ l h
  simp only [List.length_cons, Nat.succ_inj] at h
  rw [List.length_eq_zero] at h
  exact ⟨a0, a1, a2, a3, a4, a5, a6, a7, by rw [h]⟩

/-- C4 (amended): the register codec round-trips every well-formed
`HypCall`, and every `UmodeRequest` whose present address fields are
nonzero (`decode (encode x) = x`). -/
theorem codec_roundtrip :
    (∀ (c : HypCall) (regs : List Nat), regs.length = 8 → c.wf →
      HypCall.try_from_registers (c.to_registers regs) = .ok c) ∧
    (∀ (r : UmodeRequest) (regs : List Nat), regs.length = 8 → r.wf →
      UmodeRequest.try_from_registers (r.to_registers regs) = .ok r) := by
  constructor
  · intro c regs hlen hwf
    obtain ⟨a0, a1, a2, a3, a4, a5, a6, a7, rfl⟩ := exists_eight regs hlen
    cases c with
    | panic => rfl
    | putChar b =>
        simp only [HypCall.wf] at hwf
        simp [HypCall.to_registers, HypCall.try_from_registers, Nat.mod_eq_of_lt hwf]
    | nextOp r =>
        cases r with
        | ok => rfl
        | err e =>
            cases e <;>
              simp [HypCall.to_registers, HypCall.try_from_registers, UResult.to_registers,
                UResult.from_registers, UError.code, UError.fromNat]
  · intro r regs hlen hwf
    obtain ⟨h1, h2, h3, _⟩ := hwf
    obtain ⟨a0, a1, a2, a3, a4, a5, a6, a7, rfl⟩ := exists_eight regs hlen
    obtain ⟨op, ia, il, oa, ol, sa, sl⟩ := r
    cases op <;> rcases ia with _ | a <;> rcases oa with _ | b <;> rcases sa with _ | c <;>
      simp_all [UmodeRequest.to_registers, UmodeRequest.try_from_registers, UmodeOp.tryFromNat,
        UmodeOp.tag, RResult.ok_bind, RResult.pure_eq_ok]

/-- C4 counterexample: `memcopy(0x2000, 0, 0x1000)` produces a request
whose `in_addr` is `Some 0`; encoding writes the address register as
`0` and decoding turns it back into `None`, so the round trip fails on
this constructible request. -/
def cexRequest : UmodeRequest :=
  { op := .memCopy, in_addr := some 0, in_len := 4096, out_addr := some 8192,
    out_len := 4096, state_addr := none, state_len := 0 }

theorem codec_roundtrip_counterexample :
    UmodeRequest.memcopy 8192 0 4096 = some cexRequest ∧
    UmodeRequest.try_from_registers (cexRequest.to_registers Regs0) ≠ .ok cexRequest := by
  decide

/-- Witness for the hypotheses of `codec_roundtrip` at concrete values. -/
theorem codec_roundtrip_witness :
    HypCall.try_from_registers ((HypCall.putChar 65).to_registers Regs0) =
      .ok (HypCall.putChar 65) ∧
    UmodeRequest.try_from_registers ((UmodeRequest.print_string 4096 16).to_registers Regs0) =
      .ok (UmodeRequest.print_string 4096 16) :=
  ⟨codec_roundtrip.1 (HypCall.putChar 65) Regs0 (by decide) (by norm_num [HypCall.wf]),
   codec_roundtrip.2 (UmodeRequest.print_string 4096 16) Regs0 (by decide)
     (by refine ⟨by simp [UmodeRequest.print_string], by simp [UmodeRequest.print_string],
           by simp [UmodeRequest.print_string], ?_, ?_, ?_, ?_, ?_, ?_⟩ <;>
         norm_num [UmodeRequest.print_string, W64])⟩

/-- C5 (amended): the hypervisor-to-U-mode request encoding places the
op tag in `a0` (`Nop = 1`, `PrintString = 2`, `MemCopy = 3`,
`GetEvidence = 4`) and then `a1 = in_addr`, `a2 = in_len`,
`a3 = out_addr`, `a4 = out_len`, `a5 = state_addr`, `a6 = state_len`;
so MemCopy is encoded `a1 = in_addr`, `a2 = len`, `a3 = out_addr`,
`a4 = len`, and PrintString `a1 = addr`, `a2 = len`. -/
theorem umode_request_encoding :
    (∀ o i len req, UmodeRequest.memcopy o i len = some req →
      req.to_registers Regs0 = [3, i, len, o, len, 0, 0, 0]) ∧
    (∀ addr len, (UmodeRequest.print_string addr len).to_registers Regs0 =
      [2, addr, len, 0, 0, 0, 0, 0]) ∧
    UmodeRequest.nop.to_registers Regs0 = [1, 0, 0, 0, 0, 0, 0, 0] ∧
    (∀ a b c d e f, (UmodeRequest.get_evidence a b c d e f).to_registers Regs0 =
      [4, a, b, c, d, e, f, 0]) ∧
    UmodeOp.nop.tag = 1 ∧ UmodeOp.printString.tag = 2 ∧ UmodeOp.memCopy.tag = 3 ∧
      UmodeOp.getEvidence.tag = 4 := by
  refine ⟨?_, fun addr len => rfl, rfl, fun a b c d e f => rfl, rfl, rfl, rfl, rfl⟩
  intro o i len req h
  simp only [UmodeRequest.memcopy] at h
  split_ifs at h
  injection h with h
  subst h
  rfl

/-- C5 counterexample: for `memcopy(out = 0x1000, in = 0x3000,
len = 0x100)` the encoded `a1` is `0x3000` (the input address), not the
output address `0x1000` required by the spec table. -/
theorem request_encoding_counterexample :
    (UmodeRequest.memcopy 4096 12288 256).map (fun r => r.to_registers Regs0) =
      some [3, 12288, 256, 4096, 256, 0, 0, 0] ∧ (12288 : Nat) ≠ 4096 := by decide

/-- The request produced by `memcopy(0x1000, 0x3000, 0x100)`. -/
def mcReq : UmodeRequest :=
  { op := .memCopy, in_addr := some 12288, in_len := 256, out_addr := some 4096,
    out_len := 256, state_addr := none, state_len := 0 }

/-- Witness for the hypotheses of `umode_request_encoding`. -/
theorem umode_request_encoding_witness :
    mcReq.to_registers Regs0 = [3, 12288, 256, 4096, 256, 0, 0, 0] :=
  umode_request_encoding.1 4096 12288 256 mcReq (by decide)

/-! ## Hypervisor map (`src/hyp_map.rs`) -/

/-- `enum Error` of `hyp_map.rs`. -/
inductive HError where
  | elfUnalignedSegment
  | elfInvalidAddress
  | invalidSlot
  | outOfMap
  | mapperCreationFailed
  | mapFailed
  | unmapFailed
deriving DecidableEq, Repr

/-- `UMODE_VA_START`. -/
def UMODE_VA_START : Nat := 0xffffffff00000000

/-- `UMODE_VA_SIZE`. -/
def UMODE_VA_SIZE : Nat := 128 * 1024 * 1024

/-- `UMODE_VA_END`. -/
def UMODE_VA_END : Nat := UMODE_VA_START + UMODE_VA_SIZE

/-- `UMODE_MAPPING_SLOT_SIZE`. -/
def UMODE_MAPPING_SLOT_SIZE : Nat := 4 * 1024 * 1024

/-- `UMODE_MAPPING_SLOTS`. -/
def UMODE_MAPPING_SLOTS : Nat := 2

/-- `UMODE_MAPPINGS_START`. -/
def UMODE_MAPPINGS_START : Nat := UMODE_VA_END + 4 * 1024 * 1024

/-- Modelled from the spec: `PageSize::num_4k_pages` of the `riscv-pages`
crate, which is not under `src/`; the spec states the slot capacity as
`UMODE_MAPPING_SLOT_SIZE / 4K`, i.e. the number of 4 KiB pages covering
`len` bytes. -/
def num_4k_pages (len : Nat) : Nat := (len + 4096 - 1) / 4096

/-- `PteLeafPerms` leaf permission composites used by the core. -/
inductive PteLeafPerms where
  | r
  | rw
  | rwx
  | ur
  | urw
  | urx
deriving DecidableEq, Repr

/-- The result of a successful `HypPageTable::umode_slot_mapper`: a
`UmodeSlotMapper` bound to the slot base address with the chosen leaf
permissions. -/
structure UmodeSlotMapperM where
  vaddr : Nat
  perms : PteLeafPerms
deriving DecidableEq, Repr

/-- `HypPageTable::umode_slot_va(slot)`. -/
def umode_slot_va (slot : Nat) : RResult HError Nat :=
  if slot < UMODE_MAPPING_SLOTS then
    .ok (UMODE_MAPPINGS_START + slot * UMODE_MAPPING_SLOT_SIZE)
  else
    .err .invalidSlot

/-- `HypPageTable::umode_slot_mapper(slot, num_pages, writable)`.  The
fallible `sv48.map_range` call (the PTE-page pool of the page table,
implemented by the `riscv-page-tables` crate, not under `src/`) is
abstracted by the oracle `mapRangeOk`; its failure is mapped to
`MapperCreationFailed` exactly as in the source. -/
def umode_slot_mapper (slot num_pages : Nat) (writable : Bool) (mapRangeOk : Bool) :
    RResult HError UmodeSlotMapperM :=
  if num_pages > num_4k_pages UMODE_MAPPING_SLOT_SIZE then
    .err .outOfMap
  else
    match umode_slot_va slot with
    | .err e => .err e
    | .ok vaddr =>
      if mapRangeOk then
        .ok { vaddr := vaddr, perms := if writable then .urw else .ur }
      else
        .err .mapperCreationFailed

/-- C6: for the valid slot 0, `umode_slot_mapper` fails with `OutOfMap`
exactly when `num_pages` exceeds `UMODE_MAPPING_SLOT_SIZE / 4K = 1024`
(whatever the mapper-creation oracle does); and a slot number at or
above `UMODE_MAPPING_SLOTS = 2` with an in-bounds `num_pages` yields
`InvalidSlot`. -/
theorem umode_slot_mapper_errors :
    (∀ (n : Nat) (w ok : Bool),
      umode_slot_mapper 0 n w ok = .err .outOfMap ↔ 1024 < n) ∧
    (∀ (slot n : Nat) (w ok : Bool), 2 ≤ slot → n ≤ 1024 →
      umode_slot_mapper slot n w ok = .err .invalidSlot) ∧
    num_4k_pages UMODE_MAPPING_SLOT_SIZE = 1024 := by
  have hcap : num_4k_pages UMODE_MAPPING_SLOT_SIZE = 1024 := by
    norm_num [num_4k_pages, UMODE_MAPPING_SLOT_SIZE]
  refine ⟨?_, ?_, hcap⟩
  · intro n w ok
    have hva : umode_slot_va 0 = .ok UMODE_MAPPINGS_START := by
      rw [umode_slot_va, if_pos (by rw [UMODE_MAPPING_SLOTS]; omega)]
      norm_num
    rw [umode_slot_mapper, hcap, hva]
    by_cases h : n > 1024
    · rw [if_pos h]
      exact iff_of_true rfl h
    · rw [if_neg h]
      cases ok <;> exact iff_of_false (by simp) (by omega)
  · intro slot n w ok hslot hn
    have h1 : ¬ n > num_4k_pages UMODE_MAPPING_SLOT_SIZE := by rw [hcap]; omega
    have h2 : ¬ slot < UMODE_MAPPING_SLOTS := by
      rw [UMODE_MAPPING_SLOTS]; omega
    rw [umode_slot_mapper, if_neg h1, umode_slot_va, if_neg h2]

/-- Witness for the hypotheses of `umode_slot_mapper_errors`: the
literal inputs of spec scenario 6. -/
theorem umode_slot_mapper_witness :
    umode_slot_mapper 0 1025 true true = .err .outOfMap ∧
    (umode_slot_mapper 0 1024 true true = .err .outOfMap ↔ (1024 : Nat) < 1024) ∧
    umode_slot_mapper 2 5 false true = .err .invalidSlot :=
  ⟨(umode_slot_mapper_errors.1 1025 true true).mpr (by norm_num),
   umode_slot_mapper_errors.1 1024 true true,
   umode_slot_mapper_errors.2.1 2 5 false true (by norm_num) (by norm_num)⟩

/-- Modelled from the spec: `PageSize::Size4k.round_up` of the
`riscv-pages` crate, which is not under `src/` — the spec calls it
`round_up_4k(size)`. -/
def roundUp4k (n : Nat) : Nat := ((n + 4095) / 4096) * 4096

theorem roundUp4k_ge (n : Nat) : n ≤ roundUp4k n := by
  unfold roundUp4k; omega

/-- Hypervisor (supervisor-alias) view of U-mode memory: a byte value
for every virtual address. -/
abbrev Memory : Type := Nat → Nat

/-- Effect of `core::ptr::copy(data, dest, data.len())`: the bytes of
`data` placed at `dest`. -/
def copyBytes (mem : Memory) (dest : Nat) (data : List Nat) : Memory :=
  fun a => if dest ≤ a ∧ a < dest + data.length then data.getD (a - dest) 0 else mem a

/-- Effect of `core::ptr::write_bytes(dest, val, len)`. -/
def writeBytes (mem : Memory) (dest len val : Nat) : Memory :=
  fun a => if dest ≤ a ∧ a < dest + len then val else mem a

/-- `struct PrivateRegion` of `hyp_map.rs`: a per-page-table U-mode
region built from an ELF segment. -/
structure PrivateRegion where
  vaddr : Nat
  size : Nat
  perms : PteLeafPerms
  data : Option (List Nat)
deriving DecidableEq, Repr

/-- The segment data of a region, empty when absent. -/
def PrivateRegion.dataBytes (r : PrivateRegion) : List Nat := r.data.getD []

/-- End of the pages mapped for a region. -/
def PrivateRegion.mappedEnd (r : PrivateRegion) : Nat := r.vaddr + roundUp4k r.size

/-- Membership of an address in the mapped pages of a region. -/
def PrivateRegion.inMapped (r : PrivateRegion) (a : Nat) : Prop :=
  r.vaddr ≤ a ∧ a < r.mappedEnd

/-- Disjointness of the mapped pages of two regions. -/
def RangesDisjoint (r s : PrivateRegion) : Prop :=
  r.mappedEnd ≤ s.vaddr ∨ s.mappedEnd ≤ r.vaddr

/-- `PrivateRegion::restore`: re-copy up to `min(size, data.len())`
original bytes to the virtual base, then zero the rest of the mapped
pages (up to the 4 KiB round-up of `size`). -/
def PrivateRegion.restore (r : PrivateRegion) (mem : Memory) : Memory :=
  let mappedSize := roundUp4k r.size
  match r.data with
  | some d =>
    let len := min r.size d.length
    let mem1 := copyBytes mem r.vaddr (d.take len)
    writeBytes mem1 (r.vaddr + len) (mappedSize - len) 0
  | none => writeBytes mem r.vaddr mappedSize 0

/-- `HypPageTable::restore_umode`: restore every private region whose
PTE permissions are user-RW, in order. -/
def restore_umode (regions : List PrivateRegion) (mem : Memory) : Memory :=
  (regions.filter (fun r => decide (r.perms = PteLeafPerms.urw))).foldl
    (fun m r => r.restore m) mem

/-- The byte `PrivateRegion::restore` leaves at an address of the mapped
range: segment data below `min(size, data.len())`, zero up to the 4 KiB
round-up. -/
def restoreVal (r : PrivateRegion) (a : Nat) : Nat :=
  if a < r.vaddr + min r.size r.dataBytes.length then r.dataBytes.getD (a - r.vaddr) 0 else 0

theorem restore_at_self (r : PrivateRegion) (m : Memory) (a : Nat) (ha : r.inMapped a) :
    r.restore m a = restoreVal r a := by
  obtain ⟨ha1, ha2⟩ := ha
  have hru := roundUp4k_ge r.size
  rw [PrivateRegion.mappedEnd] at ha2
  cases hd : r.data with
  | none =>
    simp only [PrivateRegion.restore, hd, writeBytes, restoreVal, PrivateRegion.dataBytes,
      Option.getD_none, List.length_nil]
    rw [if_pos ⟨ha1, ha2⟩, if_neg (by omega)]
  | some d =>
    have hmin : min r.size d.length ≤ d.length := Nat.min_le_right _ _
    have hmins : min r.size d.length ≤ r.size := Nat.min_le_left _ _
    have htk : (d.take (min r.size d.length)).length = min r.size d.length := by
      rw [List.length_take]
      omega
    simp only [PrivateRegion.restore, hd, writeBytes, copyBytes, restoreVal,
      PrivateRegion.dataBytes, Option.getD_some, htk]
    by_cases hcase : a < r.vaddr + min r.size d.length
    · rw [if_neg (by omega), if_pos ⟨ha1, hcase⟩, if_pos hcase]
      have hidx : a - r.vaddr < min r.size d.length := by omega
      rw [List.getD_eq_getElem?_getD, List.getD_eq_getElem?_getD,
        List.getElem?_take_of_lt hidx]
    · rw [if_pos (by omega), if_neg hcase]

theorem restore_outside (r : PrivateRegion) (m : Memory) (a : Nat) (ha : ¬ r.inMapped a) :
    r.restore m a = m a := by
  rw [PrivateRegion.inMapped, PrivateRegion.mappedEnd] at ha
  have hru := roundUp4k_ge r.size
  cases hd : r.data with
  | none =>
    simp only [PrivateRegion.restore, hd, writeBytes]
    rw [if_neg (by omega)]
  | some d =>
    have hmins : min r.size d.length ≤ r.size := Nat.min_le_left _ _
    have htk : (d.take (min r.size d.length)).length = min r.size d.length := by
      rw [List.length_take]
      omega
    simp only [PrivateRegion.restore, hd, writeBytes, copyBytes, htk]
    rw [if_neg (by omega), if_neg (by omega)]

theorem foldl_restore_untouched (l : List PrivateRegion) (m : Memory) (a : Nat)
    (h : ∀ r ∈ l, ¬ r.inMapped a) :
    l.foldl (fun m r => r.restore m) m a = m a := by
  induction l generalizing m with
  | nil => rfl
  | cons x xs ih =>
    rw [List.foldl_cons, ih (x.restore m) (fun r hr => h r (List.mem_cons_of_mem x hr))]
    exact restore_outside x m a (h x (List.mem_cons_self x xs))

theorem foldl_restore_at (l : List PrivateRegion) (m : Memory) (r : PrivateRegion) (a : Nat)
    (hin : r ∈ l) (ha : r.inMapped a)
    (hd : ∀ s ∈ l, s = r ∨ RangesDisjoint s r) :
    l.foldl (fun m r => r.restore m) m a = restoreVal r a := by
  induction l generalizing m with
  | nil => cases hin
  | cons x xs ih =>
    rw [List.foldl_cons]
    by_cases hx : r ∈ xs
    · exact ih (x.restore m) hx (fun s hs => hd s (List.mem_cons_of_mem x hs))
    · have hxr : x = r := by
        rcases List.mem_cons.mp hin with h | h
        · exact h.symm
        · exact absurd h hx
      subst hxr
      have hnone : ∀ s ∈ xs, ¬ s.inMapped a := by
        intro s hs
        rcases hd s (List.mem_cons_of_mem x hs) with h | h
        · subst h; exact absurd hs hx
        · rw [RangesDisjoint] at h
          rw [PrivateRegion.inMapped] at ha ⊢
          omega
      rw [foldl_restore_untouched xs _ a hnone]
      exact restore_at_self x m a ha

/-- C2: after `restore_umode`, every user-RW private region (whose
mapped pages are disjoint from those of the other user-RW regions)
holds its first `min(size, data.len())` original data bytes followed by
zeroes up to `round_up_4k(size)`; addresses outside every user-RW
region's mapped pages — in particular all non-user-RW regions — are
untouched. -/
theorem restore_umode_spec (regions : List PrivateRegion) (mem : Memory) :
    (∀ r ∈ regions, r.perms = PteLeafPerms.urw →
      (∀ s ∈ regions, s.perms = PteLeafPerms.urw → s ≠ r → RangesDisjoint s r) →
      (∀ i, i < min r.size r.dataBytes.length →
        restore_umode regions mem (r.vaddr + i) = r.dataBytes.getD i 0) ∧
      (∀ i, min r.size r.dataBytes.length ≤ i → i < roundUp4k r.size →
        restore_umode regions mem (r.vaddr + i) = 0)) ∧
    (∀ a, (∀ r ∈ regions, r.perms = PteLeafPerms.urw → ¬ r.inMapped a) →
      restore_umode regions mem a = mem a) := by
  constructor
  · intro r hr hperm hdisj
    have hrl : r ∈ regions.filter (fun r => decide (r.perms = PteLeafPerms.urw)) :=
      List.mem_filter.mpr ⟨hr, by simp [hperm]⟩
    have hdl : ∀ s ∈ regions.filter (fun r => decide (r.perms = PteLeafPerms.urw)),
        s = r ∨ RangesDisjoint s r := by
      intro s hs
      obtain ⟨hs1, hs2⟩ := List.mem_filter.mp hs
      by_cases hsr : s = r
      · exact Or.inl hsr
      · exact Or.inr (hdisj s hs1 (by simpa using hs2) hsr)
    have hmins : min r.size r.dataBytes.length ≤ r.size := Nat.min_le_left _ _
    have hru := roundUp4k_ge r.size
    constructor
    · intro i hi
      have hm : r.inMapped (r.vaddr + i) := by
        rw [PrivateRegion.inMapped, PrivateRegion.mappedEnd]
        omega
      rw [restore_umode, foldl_restore_at _ mem r _ hrl hm hdl, restoreVal,
        if_pos (by omega), Nat.add_sub_cancel_left]
    · intro i hi1 hi2
      have hm : r.inMapped (r.vaddr + i) := by
        rw [PrivateRegion.inMapped, PrivateRegion.mappedEnd]
        omega
      rw [restore_umode, foldl_restore_at _ mem r _ hrl hm hdl, restoreVal,
        if_neg (by omega)]
  · intro a h
    rw [restore_umode]
    refine foldl_restore_untouched _ mem a ?_
    intro r hrf
    obtain ⟨hr1, hr2⟩ := List.mem_filter.mp hrf
    exact h r hr1 (by simpa using hr2)

/-- A user-RW region with 2 data bytes and a 3-byte size (spec
scenario 4). -/
def regA : PrivateRegion := { vaddr := 4096, size := 3, perms := .urw, data := some [1, 2] }

/-- A read-only region that `restore_umode` must not touch. -/
def regB : PrivateRegion := { vaddr := 16384, size := 4096, perms := .ur, data := some [5] }

/-- Initial memory filled with the byte 7. -/
def mem7 : Memory := fun _ => 7

/-- Witness for the hypotheses of `restore_umode_spec`: the data byte at
offset 0, a zeroed byte at offset 2, and the untouched read-only region. -/
theorem restore_umode_witness :
    restore_umode [regA, regB] mem7 (regA.vaddr + 0) = 1 ∧
    restore_umode [regA, regB] mem7 (regA.vaddr + 2) = 0 ∧
    restore_umode [regA, regB] mem7 16384 = 7 := by
  have hdisj : ∀ s ∈ [regA, regB], s.perms = PteLeafPerms.urw → s ≠ regA →
      RangesDisjoint s regA := by
    intro s hs hp hne
    rcases List.mem_cons.mp hs with h | h
    · exact absurd h hne
    · rcases List.mem_cons.mp h with h | h
      · subst h; exact absurd hp (by simp [regB])
      · cases h
  have hmain := (restore_umode_spec [regA, regB] mem7).1 regA
    (List.mem_cons_self _ _) rfl hdisj
  refine ⟨?_, ?_, ?_⟩
  · have := hmain.1 0 (by norm_num [regA, PrivateRegion.dataBytes])
    simpa [regA, PrivateRegion.dataBytes] using this
  · exact hmain.2 2 (by norm_num [regA, PrivateRegion.dataBytes])
      (by norm_num [regA, roundUp4k])
  · refine (restore_umode_spec [regA, regB] mem7).2 16384 ?_
    intro r hr hp
    rcases List.mem_cons.mp hr with h | h
    · subst h
      norm_num [PrivateRegion.inMapped, PrivateRegion.mappedEnd, regA, roundUp4k]
    · rcases List.mem_cons.mp h with h | h
      · subst h; exact absurd hp (by simp [regB])
      · cases h

/-! ## Page tracking (`riscv-page-tables/src/page_tracking.rs`) -/

/-- `enum Error` of `page_tracking.rs`. -/
inductive PErr where
  | guestOverflow
  | idOverflow
  | invalidPage (addr : Nat)
  | ownerOverflow
  | ownerUnderflow
  | unownedPage
  | reservedPage
deriving DecidableEq, Repr

/-- `MemType`: what a physical page represents. -/
inductive MemType where
  | ram
  | mmio
  | reserved
deriving DecidableEq, Repr

/-- The per-page state of the spec data model (§3). -/
inductive PageState where
  | free
  | clean
  | dirty
  | mapped
deriving DecidableEq, Repr

/-- Modelled from the spec: `PageInfo` of
`riscv-page-tables/src/page_info.rs`, which is not under `src/`.  Per
§3 of the spec it holds the memory type, a bounded stack of owner ids
whose top (head of the list here) is the current owner, and the page
state. -/
structure PageInfo where
  memType : MemType
  owners : List Nat
  state : PageState
deriving DecidableEq, Repr

/-- Modelled from the spec: the owner-stack depth bound (spec §3 asks
for depth ≥ 4). -/
def MAX_PAGE_OWNERS : Nat := 4

/-- Modelled from the spec: `PageInfo::is_free` — the page is in the
`Free` state. -/
def PageInfo.is_free (p : PageInfo) : Bool := decide (p.state = PageState.free)

/-- Modelled from the spec: `PageInfo::push_owner` — Reserved pages
reject mutation, the owner stack is bounded, and a push moves a `Free`
page to `Clean`. -/
def PageInfo.push_owner (p : PageInfo) (id : Nat) : RResult PErr PageInfo :=
  if p.memType = MemType.reserved then .err .reservedPage
  else if MAX_PAGE_OWNERS ≤ p.owners.length then .err .ownerOverflow
  else .ok { p with
             owners := id :: p.owners,
             state := if p.state = PageState.free then PageState.clean else p.state }

/-- Modelled from the spec: `PageInfo::find_owner` — the topmost owner
satisfying the predicate (spec §4.B: "returns topmost owner that is
still in active set, ignoring intervening stale owners"). -/
def PageInfo.find_owner (p : PageInfo) (pred : Nat → Bool) : Option Nat :=
  p.owners.find? pred

/-- Modelled from the spec: `PageMap` — an array of `PageInfo` indexed
by physical frame number, created once (§3).  Addresses are embedded as
4 KiB frame numbers starting at `base`. -/
structure PageMap where
  base : Nat
  infos : List PageInfo
deriving DecidableEq, Repr

/-- `PageMap::get`. -/
def PageMap.get : PageMap → Nat → Option PageInfo
  | ⟨base, infos⟩, a => if base ≤ a then infos[a - base]? else none

/-- `PageMap::get_mut` followed by an update of the entry. -/
def PageMap.set : PageMap → Nat → PageInfo → PageMap
  | ⟨base, infos⟩, a, p =>
    if base ≤ a then ⟨base, infos.set (a - base) p⟩ else ⟨base, infos⟩

/-- One past the last frame number tracked by the map. -/
def PageMap.endAddr : PageMap → Nat
  | ⟨base, infos⟩ => base + infos.length

/-- `struct PageTrackerInner` (the mutex-protected state; the mutex
itself serializes access and is not represented). -/
structure PageTrackerInner where
  next_owner_id : Nat
  active_guests : List Nat
  pages : PageMap
deriving DecidableEq, Repr

/-- `PageTrackerInner::owner` (and `PageTracker::owner`, which locks
and delegates): the topmost owner of the page that is still in the
active-guest set. -/
def PageTrackerInner.owner (s : PageTrackerInner) (addr : Nat) : Option Nat :=
  (s.pages.get addr).bind fun info => info.find_owner (fun id => s.active_guests.contains id)

/-- C1: for a tracked page whose owner stack is `top :: rest`, `owner`
returns `top` when `top` is active, and otherwise the first active
owner below the top — `none` when no owner below the top is active. -/
theorem tracker_owner_spec (s : PageTrackerInner) (addr : Nat) (info : PageInfo)
    (top : Nat) (rest : List Nat)
    (hget : s.pages.get addr = some info) (howners : info.owners = top :: rest) :
    (top ∈ s.active_guests → s.owner addr = some top) ∧
    (top ∉ s.active_guests →
      s.owner addr = rest.find? (fun id => s.active_guests.contains id)) ∧
    (top ∉ s.active_guests → (∀ id ∈ rest, id ∉ s.active_guests) →
      s.owner addr = none) := by
  have hbase : s.owner addr =
      (top :: rest).find? (fun id => s.active_guests.contains id) := by
    rw [PageTrackerInner.owner, hget, Option.some_bind, PageInfo.find_owner, howners]
  refine ⟨?_, ?_, ?_⟩
  · intro h
    rw [hbase, List.find?_cons_of_pos _ (by simpa using h)]
  · intro h
    rw [hbase, List.find?_cons_of_neg _ (by simpa using h)]
  · intro h hall
    rw [hbase, List.find?_cons_of_neg _ (by simpa using h)]
    exact List.find?_eq_none.mpr fun x hx => by simpa using hall x hx

/-- A page owned by the exited guest 2 on top of the host 0. -/
def wInfo : PageInfo := { memType := .ram, owners := [2, 0], state := .mapped }

/-- A tracker whose active set holds only the host. -/
def wTracker : PageTrackerInner :=
  { next_owner_id := 3, active_guests := [0], pages := { base := 10, infos := [wInfo] } }

/-- Witness for the hypotheses of `tracker_owner_spec`: the stale top
owner 2 is skipped and the host 0 is returned. -/
theorem tracker_owner_witness : wTracker.owner 10 = some 0 :=
  ((tracker_owner_spec wTracker 10 wInfo 2 [0] (by decide) (by decide)).2.1
    (by decide)).trans (by decide)

/-- `PageTracker::rm_active_guest`: `active_guests.retain(|&id| id != remove_id)`. -/
def rm_active_guest (l : List Nat) (remove_id : Nat) : List Nat :=
  l.filter (fun id => decide (id ≠ remove_id))

/-- C9: `rm_active_guest` is total (no error path), removes every
occurrence of the id, keeps all other ids in their relative order, is
the identity when the id is absent, and has no special guard for the
host id 0. -/
theorem rm_active_guest_spec :
    (∀ (l : List Nat) (id : Nat), id ∉ rm_active_guest l id) ∧
    (∀ (l : List Nat) (id j : Nat), j ≠ id → (j ∈ rm_active_guest l id ↔ j ∈ l)) ∧
    (∀ (l : List Nat) (id : Nat), (rm_active_guest l id).Sublist l) ∧
    (∀ (l : List Nat) (id : Nat), id ∉ l → rm_active_guest l id = l) ∧
    (∀ l : List Nat, 0 ∉ rm_active_guest l 0) := by
  have hrm : ∀ (l : List Nat) (id : Nat), id ∉ rm_active_guest l id := by
    intro l id h
    have := List.of_mem_filter h
    simp at this
  refine ⟨hrm, ?_, ?_, ?_, fun l => hrm l 0⟩
  · intro l id j hj
    constructor
    · exact fun h => List.mem_of_mem_filter h
    · intro h
      exact List.mem_filter.mpr ⟨h, by simpa using hj⟩
  · intro l id
    exact List.filter_sublist l
  · intro l id h
    refine List.filter_eq_self.mpr fun a ha => ?_
    simp only [decide_eq_true_eq]
    exact fun heq => h (heq ▸ ha)

/-- Witness for the hypotheses of `rm_active_guest_spec`. -/
theorem rm_active_guest_witness :
    (3 ∈ rm_active_guest [0, 2, 3] 2 ↔ 3 ∈ [0, 2, 3]) ∧
    rm_active_guest [0, 2, 3] 5 = [0, 2, 3] :=
  ⟨rm_active_guest_spec.2.1 [0, 2, 3] 2 3 (by decide),
   rm_active_guest_spec.2.2.2.1 [0, 2, 3] 5 (by decide)⟩

/-- `PageTracker::add_active_guest`.  The id is taken from
`next_owner_id`, the counter is advanced with `checked_add` (failing
with `IdOverflow` at `u64::MAX`), and only then is space reserved in
the active-guest vector; that `try_reserve` (an allocation whose
outcome depends on the environment) is abstracted by the `reserveOk`
oracle, and its failure maps to `GuestOverflow` after the counter was
already advanced, exactly as in the source. -/
def add_active_guest (s : PageTrackerInner) (reserveOk : Bool) :
    RResult PErr Nat × PageTrackerInner :=
  let id := s.next_owner_id
  if W64 ≤ s.next_owner_id + 1 then (.err .idOverflow, s)
  else
    let s1 := { s with next_owner_id := s.next_owner_id + 1 }
    if reserveOk then (.ok id, { s1 with active_guests := s1.active_guests ++ [id] })
    else (.err .guestOverflow, s1)

/-- A sequence of `add_active_guest` calls with the given
`try_reserve` outcomes, returning the list of results. -/
def runSeq (s : PageTrackerInner) : List Bool → List (RResult PErr Nat) × PageTrackerInner
  | [] => ([], s)
  | b :: bs =>
    ((add_active_guest s b).1 :: (runSeq (add_active_guest s b).2 bs).1,
     (runSeq (add_active_guest s b).2 bs).2)

theorem add_next_mono (s : PageTrackerInner) (b : Bool) :
    s.next_owner_id ≤ (add_active_guest s b).2.next_owner_id := by
  rw [add_active_guest]
  split_ifs <;> simp

theorem runSeq_ok_ge (bs : List Bool) (s : PageTrackerInner) (r : RResult PErr Nat)
    (hr : r ∈ (runSeq s bs).1) (id : Nat) (hid : r = .ok id) :
    s.next_owner_id ≤ id := by
  induction bs generalizing s with
  | nil => simp [runSeq] at hr
  | cons b bs ih =>
    rw [runSeq] at hr
    rcases List.mem_cons.mp hr with h | h
    · subst hid
      simp only [add_active_guest] at h
      by_cases h1 : W64 ≤ s.next_owner_id + 1
      · rw [if_pos h1] at h
        simp at h
      · rw [if_neg h1] at h
        cases b <;> simp at h
        omega
    · exact le_trans (add_next_mono s b) (ih _ h)

/-- C10: when `try_reserve` fails, `add_active_guest` returns
`GuestOverflow` but has already advanced `next_owner_id`; hence the id
that failed to register is never returned by any later call (successful
or not), and a failure between two successful calls leaves a gap in the
returned ids (concrete run: results `[Ok 2, Err GuestOverflow, Ok 4]`). -/
theorem add_active_guest_skips_id (s : PageTrackerInner) (h : s.next_owner_id + 1 < W64) :
    (add_active_guest s false =
      (.err .guestOverflow, { s with next_owner_id := s.next_owner_id + 1 })) ∧
    (∀ (bs : List Bool) (r : RResult PErr Nat),
      r ∈ (runSeq (add_active_guest s false).2 bs).1 → ∀ id, r = .ok id →
        s.next_owner_id < id) ∧
    (runSeq { next_owner_id := 2, active_guests := [0], pages := ⟨0, []⟩ }
        [true, false, true]).1 = [.ok 2, .err .guestOverflow, .ok 4] := by
  have hkey : add_active_guest s false =
      (.err .guestOverflow, { s with next_owner_id := s.next_owner_id + 1 }) := by
    rw [add_active_guest, if_neg (by omega)]
    simp
  refine ⟨hkey, ?_, by decide⟩
  intro bs r hr id hid
  have h2 := runSeq_ok_ge bs _ r hr id hid
  rw [hkey] at h2
  simp only at h2
  omega

/-- Witness for the hypotheses of `add_active_guest_skips_id`. -/
theorem add_active_guest_skips_id_witness :
    add_active_guest { next_owner_id := 2, active_guests := [0], pages := ⟨0, []⟩ } false =
      (.err .guestOverflow, { next_owner_id := 3, active_guests := [0], pages := ⟨0, []⟩ }) :=
  (add_active_guest_skips_id _ (by decide)).1

/-! ## Bootstrap allocator (`HypPageAlloc` in `page_tracking.rs`).
Page addresses are embedded as 4 KiB frame numbers; the byte address of
frame `a` is `a * 4096`. -/

/-- Upward scan for `findFirst`, with the number of remaining
candidates as structural fuel. -/
def findFirstGo (pred : Nat → Bool) : Nat → Nat → Option Nat
  | 0, _ => none
  | n + 1, a => if pred a then some a else findFirstGo pred n (a + 1)

/-- The first index in `[a, e)` satisfying `pred`, scanning upwards
(the `iter_from(..).find(..)` pattern of the source; `none` is the case
in which the source unwraps and panics). -/
def findFirst (pred : Nat → Bool) (a e : Nat) : Option Nat :=
  findFirstGo pred (e - a) a

/-- Whether the map tracks a free page at `a`
(`pages.get(a).map_or(false, |p| p.is_free())`). -/
def freeAt (m : PageMap) (a : Nat) : Bool :=
  match m.get a with
  | some p => p.is_free
  | none => false

/-- The `range_is_free_and_aligned` closure of
`take_pages_with_alignment`: the byte address of `start` has no bit in
common with `align - 1`, and the `count` pages from `start` are all
tracked and free. -/
def rangeFreeAligned (m : PageMap) (count align start : Nat) : Bool :=
  decide ((start * 4096) &&& (align - 1) = 0) &&
    (List.range count).all (fun j => freeAt m (start + j))

/-- The marking loop of `markRange`, with the number of remaining pages
as structural fuel. -/
def markRangeGo : PageMap → Nat → Nat → Option PageMap
  | m, 0, _ => some m
  | m, n + 1, a =>
    match m.get a with
    | some p =>
      if p.is_free then
        match p.push_owner 1 with
        | .ok p2 => markRangeGo (m.set a p2) n (a + 1)
        | .err _ => none
      else markRangeGo m n (a + 1)
    | none => markRangeGo m n (a + 1)

/-- The marking loop of `take_pages_with_alignment`: every tracked free
page in `[a, e)` is pushed the hypervisor owner id 1 (`none` models the
panic of the `unwrap` on `push_owner`). -/
def markRange (m : PageMap) (a e : Nat) : Option PageMap :=
  markRangeGo m (e - a) a

/-- `struct HypPageAlloc`: the bump position and the system page map
(the allocator handle `alloc` plays no role in the embedded
operations). -/
structure HypPageAllocM where
  next_page : Nat
  pages : PageMap
deriving DecidableEq, Repr

/-- `HypPageAlloc::take_pages_with_alignment(count, align)`: scan from
`next_page` for the first free-and-aligned range, mark every free page
up to its end as hypervisor-owned, and advance `next_page` to the first
free page at or after the end of the range.  `none` models the panics
of the source's `unwrap`s. -/
def take_pages_with_alignment (s : HypPageAllocM) (count align : Nat) :
    Option (Nat × HypPageAllocM) :=
  match findFirst (rangeFreeAligned s.pages count align) s.next_page s.pages.endAddr with
  | none => none
  | some first_page =>
    match markRange s.pages s.next_page (first_page + count) with
    | none => none
    | some m2 =>
      match findFirst (freeAt m2) (first_page + count) m2.endAddr with
      | none => none
      | some next2 => some (first_page, { next_page := next2, pages := m2 })

/-- `HypPageAlloc::next_page()`: take the page at `next_page` (pushing
the hypervisor owner) and advance to the next free page.  `none` models
the panics of the source. -/
def next_page_op (s : HypPageAllocM) : Option (Nat × HypPageAllocM) :=
  match s.pages.get s.next_page with
  | none => none
  | some p =>
    match p.push_owner 1 with
    | .err _ => none
    | .ok p2 =>
      match findFirst (freeAt (s.pages.set s.next_page p2)) s.next_page
          (s.pages.set s.next_page p2).endAddr with
      | none => none
      | some next2 => some (s.next_page, { next_page := next2,
                                           pages := s.pages.set s.next_page p2 })

theorem PageMap.get_set_ne (m : PageMap) (a b : Nat) (p : PageInfo) (hne : b ≠ a) :
    (m.set a p).get b = m.get b := by
  obtain ⟨base, infos⟩ := m
  rw [PageMap.set]
  split_ifs with h1
  · rw [PageMap.get, PageMap.get]
    by_cases h2 : base ≤ b
    · rw [if_pos h2, if_pos h2]
      exact List.getElem?_set_ne (by omega)
    · rw [if_neg h2, if_neg h2]
  · rfl

theorem PageMap.get_set_self (m : PageMap) (a : Nat) (p q : PageInfo) (h : m.get a = some q) :
    (m.set a p).get a = some p := by
  obtain ⟨base, infos⟩ := m
  rw [PageMap.get] at h
  rw [PageMap.set]
  split_ifs with h1
  · rw [if_pos h1] at h
    have hlt : a - base < infos.length := by
      by_contra hc
      rw [List.getElem?_eq_none (by omega)] at h
      cases h
    rw [PageMap.get, if_pos h1]
    exact List.getElem?_set_eq_of_lt p hlt
  · rw [if_neg h1] at h
    cases h

theorem PageMap.get_set_none (m : PageMap) (a : Nat) (p : PageInfo) (h : m.get a = none) :
    (m.set a p).get a = none := by
  obtain ⟨base, infos⟩ := m
  rw [PageMap.get] at h
  rw [PageMap.set]
  split_ifs with h1
  · rw [if_pos h1] at h
    rw [PageMap.get, if_pos h1]
    rw [List.getElem?_eq_none_iff] at h ⊢
    simpa using h
  · rw [PageMap.get, if_neg h1]

theorem PageMap.endAddr_set (m : PageMap) (a : Nat) (p : PageInfo) :
    (m.set a p).endAddr = m.endAddr := by
  obtain ⟨base, infos⟩ := m
  rw [PageMap.set]
  split_ifs <;> simp [PageMap.endAddr]

theorem PageMap.get_bounds (m : PageMap) (a : Nat) (p : PageInfo) (h : m.get a = some p) :
    m.base ≤ a ∧ a < m.endAddr := by
  obtain ⟨base, infos⟩ := m
  rw [PageMap.get] at h
  split_ifs at h with h1
  refine ⟨h1, ?_⟩
  rw [PageMap.endAddr]
  by_contra hc
  rw [List.getElem?_eq_none (by omega)] at h
  cases h

theorem push_owner_shape_free (p p2 : PageInfo) (id : Nat) (hfree : p.is_free = true)
    (h : p.push_owner id = .ok p2) :
    p2 = { memType := p.memType, owners := id :: p.owners, state := PageState.clean } := by
  have hst : p.state = PageState.free := by simpa [PageInfo.is_free] using hfree
  rw [PageInfo.push_owner] at h
  split_ifs at h with h1 h2
  injection h with h
  rw [← h]

theorem findFirstGo_spec (pred : Nat → Bool) : ∀ (n a r : Nat),
    findFirstGo pred n a = some r →
    a ≤ r ∧ r < a + n ∧ pred r = true ∧ ∀ x, a ≤ x → x < r → pred x = false := by
  intro n
  induction n with
  | zero =>
    intro a r h
    cases h
  | succ n ih =>
    intro a r h
    rw [findFirstGo] at h
    by_cases hp : pred a = true
    · rw [if_pos hp] at h
      injection h with h
      subst h
      exact ⟨le_refl _, by omega, hp, fun x hx1 hx2 => absurd hx1 (by omega)⟩
    · rw [if_neg hp] at h
      obtain ⟨h1, h2, h3, h4⟩ := ih (a + 1) r h
      simp only [Bool.not_eq_true] at hp
      refine ⟨by omega, by omega, h3, ?_⟩
      intro x hx1 hx2
      rcases Nat.eq_or_lt_of_le hx1 with heq | hlt
      · rw [← heq]
        exact hp
      · exact h4 x (by omega) hx2

theorem findFirst_spec (pred : Nat → Bool) (a e r : Nat) (h : findFirst pred a e = some r) :
    a ≤ r ∧ r < e ∧ pred r = true ∧ ∀ x, a ≤ x → x < r → pred x = false := by
  obtain ⟨h1, h2, h3, h4⟩ := findFirstGo_spec pred (e - a) a r h
  by_cases he : a < e
  · exact ⟨h1, by omega, h3, h4⟩
  · exfalso
    have h0 : e - a = 0 := by omega
    rw [findFirst, h0] at h
    cases h

theorem findFirst_at_start (pred : Nat → Bool) (a e : Nat) (ha : a < e) (hp : pred a = true) :
    findFirst pred a e = some a := by
  have h0 : e - a = (e - a - 1) + 1 := by omega
  rw [findFirst, h0, findFirstGo, if_pos hp]

theorem markRangeGo_spec : ∀ (n : Nat) (m : PageMap) (a : Nat) (m2 : PageMap),
    markRangeGo m n a = some m2 →
    (∀ b, b < a ∨ a + n ≤ b → m2.get b = m.get b) ∧
    (∀ b p, a ≤ b → b < a + n → m.get b = some p →
      (p.is_free = true →
        m2.get b = some { memType := p.memType, owners := 1 :: p.owners,
                          state := PageState.clean }) ∧
      (p.is_free = false → m2.get b = m.get b)) ∧
    m2.endAddr = m.endAddr := by
  intro n
  induction n with
  | zero =>
    intro m a m2 h
    injection h with h
    subst h
    exact ⟨fun b _ => rfl, fun b p hb1 hb2 _ => absurd hb2 (by omega), rfl⟩
  | succ n ih =>
    intro m a m2 h
    rw [markRangeGo] at h
    cases hget : m.get a with
    | none =>
      simp only [hget] at h
      obtain ⟨ih1, ih2, ih3⟩ := ih m (a + 1) m2 h
      refine ⟨?_, ?_, ih3⟩
      · intro b hb
        exact ih1 b (hb.imp (fun h2 => by omega) (fun h2 => by omega))
      · intro b p hb1 hb2 hgetb
        by_cases hba : b = a
        · rw [hba, hget] at hgetb
          cases hgetb
        · exact ih2 b p (by omega) (by omega) hgetb
    | some p =>
      simp only [hget] at h
      by_cases hfree : p.is_free = true
      · rw [if_pos hfree] at h
        cases hpush : p.push_owner 1 with
        | err e2 =>
          rw [hpush] at h
          cases h
        | ok p2 =>
          simp only [hpush] at h
          obtain ⟨ih1, ih2, ih3⟩ := ih (m.set a p2) (a + 1) m2 h
          have hshape := push_owner_shape_free p p2 1 hfree hpush
          refine ⟨?_, ?_, ?_⟩
          · intro b hb
            have hba : b ≠ a := by omega
            rw [ih1 b (hb.imp (fun h2 => by omega) (fun h2 => by omega)),
              PageMap.get_set_ne m a b p2 hba]
          · intro b p3 hb1 hb2 hgetb
            by_cases hba : b = a
            · rw [hba, hget] at hgetb
              injection hgetb with hg
              constructor
              · intro _
                have hh : m2.get b = (m.set a p2).get b := ih1 b (Or.inl (by omega))
                rw [hh, hba, PageMap.get_set_self m a p2 p hget, hshape, ← hg]
              · intro hf
                rw [← hg, hfree] at hf
                cases hf
            · have hgetb2 : (m.set a p2).get b = some p3 := by
                rw [PageMap.get_set_ne m a b p2 hba]
                exact hgetb
              constructor
              · intro hf
                exact (ih2 b p3 (by omega) (by omega) hgetb2).1 hf
              · intro hf
                have hh := (ih2 b p3 (by omega) (by omega) hgetb2).2 hf
                rw [hh, PageMap.get_set_ne m a b p2 hba]
          · rw [ih3, PageMap.endAddr_set]
      · rw [if_neg hfree] at h
        obtain ⟨ih1, ih2, ih3⟩ := ih m (a + 1) m2 h
        simp only [Bool.not_eq_true] at hfree
        refine ⟨?_, ?_, ih3⟩
        · intro b hb
          exact ih1 b (hb.imp (fun h2 => by omega) (fun h2 => by omega))
        · intro b p3 hb1 hb2 hgetb
          by_cases hba : b = a
          · rw [hba, hget] at hgetb
            injection hgetb with hg
            constructor
            · intro hf
              rw [← hg, hfree] at hf
              cases hf
            · intro _
              rw [hba]
              exact ih1 a (Or.inl (by omega))
          · exact ih2 b p3 (by omega) (by omega) hgetb

theorem markRange_spec (m : PageMap) (a e : Nat) (m2 : PageMap)
    (h : markRange m a e = some m2) :
    (∀ b, b < a ∨ e ≤ b → m2.get b = m.get b) ∧
    (∀ b p, a ≤ b → b < e → m.get b = some p →
      (p.is_free = true →
        m2.get b = some { memType := p.memType, owners := 1 :: p.owners,
                          state := PageState.clean }) ∧
      (p.is_free = false → m2.get b = m.get b)) ∧
    m2.endAddr = m.endAddr := by
  obtain ⟨g1, g2, g3⟩ := markRangeGo_spec (e - a) m a m2 h
  by_cases he : a ≤ e
  · have hae : a + (e - a) = e := by omega
    rw [hae] at g1 g2
    exact ⟨g1, g2, g3⟩
  · have h0 : e - a = 0 := by omega
    rw [markRange, h0] at h
    injection h with h
    subst h
    exact ⟨fun b _ => rfl, fun b p hb1 hb2 _ => absurd hb2 (by omega), rfl⟩

theorem next_page_op_fst (s : HypPageAllocM) (pg : Nat) (s3 : HypPageAllocM)
    (h : next_page_op s = some (pg, s3)) : pg = s.next_page := by
  rw [next_page_op] at h
  cases h1 : s.pages.get s.next_page with
  | none =>
    rw [h1] at h
    cases h
  | some p =>
    simp only [h1] at h
    cases h2 : p.push_owner 1 with
    | err e2 =>
      rw [h2] at h
      cases h
    | ok p2 =>
      simp only [h2] at h
      cases h3 : findFirst (freeAt (s.pages.set s.next_page p2)) s.next_page
          (s.pages.set s.next_page p2).endAddr with
      | none =>
        rw [h3] at h
        cases h
      | some next2 =>
        simp only [h3] at h
        injection h with h
        injection h with h4 h5
        exact h4.symm

/-- C8: a successful `take_pages_with_alignment(count, align)` (with
`align` a power of two) returns the lowest frame `first` at or after
the current position such that the `count` pages from `first` are all
free and `first`'s byte address is `align`-aligned; every free page
between the previous position and the end of the returned range
(skipped pages included) gets the hypervisor id 1 pushed as owner, and
a subsequent `next_page()` returns the page immediately following the
range whenever that page is free. -/
theorem take_pages_with_alignment_spec (s : HypPageAllocM) (count align k : Nat)
    (halign : align = 2 ^ k) (first : Nat) (s2 : HypPageAllocM)
    (h : take_pages_with_alignment s count align = some (first, s2)) :
    s.next_page ≤ first ∧
    (first * 4096) % align = 0 ∧
    (∀ j, j < count → freeAt s.pages (first + j) = true) ∧
    (∀ a, s.next_page ≤ a → a < first → rangeFreeAligned s.pages count align a = false) ∧
    (∀ a p, s.next_page ≤ a → a < first + count → s.pages.get a = some p →
      p.is_free = true →
      s2.pages.get a = some { memType := p.memType, owners := 1 :: p.owners,
                              state := PageState.clean }) ∧
    (freeAt s2.pages (first + count) = true →
      s2.next_page = first + count ∧
      ∀ pg s3, next_page_op s2 = some (pg, s3) → pg = first + count) := by
  rw [take_pages_with_alignment] at h
  cases hf1 : findFirst (rangeFreeAligned s.pages count align) s.next_page s.pages.endAddr with
  | none =>
    rw [hf1] at h
    cases h
  | some first_page =>
    simp only [hf1] at h
    cases hm : markRange s.pages s.next_page (first_page + count) with
    | none =>
      rw [hm] at h
      cases h
    | some m2 =>
      simp only [hm] at h
      cases hf2 : findFirst (freeAt m2) (first_page + count) m2.endAddr with
      | none =>
        rw [hf2] at h
        cases h
      | some next2 =>
        simp only [hf2] at h
        injection h with h
        injection h with h4 h5
        have hs2p : s2.pages = m2 := by rw [← h5]
        have hs2n : s2.next_page = next2 := by rw [← h5]
        subst h4
        obtain ⟨hj1, hj2, hj3, hj4⟩ := findFirst_spec _ _ _ _ hf1
        obtain ⟨hm1, hm2, hm3⟩ := markRange_spec _ _ _ _ hm
        rw [rangeFreeAligned, Bool.and_eq_true, decide_eq_true_eq, List.all_eq_true] at hj3
        obtain ⟨hal, hfr⟩ := hj3
        refine ⟨hj1, ?_, ?_, ?_, ?_, ?_⟩
        · rw [halign] at hal ⊢
          rw [← Nat.and_pow_two_sub_one_eq_mod]
          exact hal
        · intro j hj
          exact hfr j (List.mem_range.mpr hj)
        · intro a ha1 ha2
          exact hj4 a ha1 ha2
        · intro a p ha1 ha2 hget hfree
          rw [hs2p]
          exact (hm2 a p ha1 ha2 hget).1 hfree
        · intro hfree
          rw [hs2p] at hfree
          have hbound : first_page + count < m2.endAddr := by
            have hf3 := hfree
            rw [freeAt] at hf3
            cases hg : m2.get (first_page + count) with
            | none =>
              rw [hg] at hf3
              cases hf3
            | some q =>
              exact (PageMap.get_bounds m2 (first_page + count) q hg).2
          have heq : findFirst (freeAt m2) (first_page + count) m2.endAddr =
              some (first_page + count) :=
            findFirst_at_start _ _ _ hbound hfree
          rw [hf2] at heq
          injection heq with heq
          constructor
          · rw [hs2n, ← heq]
          · intro pg s3 hnp
            rw [next_page_op_fst s2 pg s3 hnp, hs2n, ← heq]

/-- A free RAM page. -/
def freePg : PageInfo := { memType := .ram, owners := [], state := .free }

/-- A page already taken by the hypervisor. -/
def usedPg : PageInfo := { memType := .ram, owners := [1], state := .clean }

/-- A five-page allocator positioned at frame 1, with frame 0 already
taken. -/
def wAlloc : HypPageAllocM :=
  { next_page := 1, pages := { base := 0, infos := [usedPg, freePg, freePg, freePg, freePg] } }

/-- `wAlloc` after `take_pages_with_alignment(2, 8192)`: the skipped
frame 1 and the taken frames 2 and 3 are hypervisor-owned, and the
position is frame 4. -/
def wAlloc2 : HypPageAllocM :=
  { next_page := 4, pages := { base := 0, infos := [usedPg, usedPg, usedPg, usedPg, freePg] } }

/-- Witness for the hypotheses of `take_pages_with_alignment_spec`:
taking 2 pages at 8 KiB alignment from `wAlloc` skips the unaligned
frame 1 (assigning it to the hypervisor) and returns frames 2 and 3. -/
theorem take_pages_with_alignment_witness :
    (2 * 4096) % 8192 = 0 ∧
    wAlloc2.pages.get 1 = some { memType := freePg.memType, owners := 1 :: freePg.owners,
                                 state := PageState.clean } ∧
    wAlloc2.next_page = 2 + 2 := by
  have H := take_pages_with_alignment_spec wAlloc 2 8192 13 (by norm_num) 2 wAlloc2 (by decide)
  exact ⟨H.2.1, H.2.2.2.2.1 1 freePg (by decide) (by norm_num) (by decide) (by decide),
    (H.2.2.2.2.2 (by decide)).1⟩


/-! ## ELF loader (`riscv-elf/src/lib.rs`) -/

/-- `enum Error` of the ELF loader. -/
inductive ElfError where
  | badOffset
  | invalidMagicNumber
  | invalidClass
  | invalidEndianness
  | notRiscV
  | badElfVersion
  | badEntrySize
  | programHeaderMalformed
  | unsupportedSegmentFlags (flags : Nat)
deriving DecidableEq, Repr

/-- Little-endian value of `n` bytes of `bytes` starting at `off` (the
field reads done by the source through its `repr(packed, C)` struct
casts; every read is inside a slice previously bounds-checked by
`slice_get_range`). -/
def readLE (bytes : List Nat) (off : Nat) : Nat → Nat
  | 0 => 0
  | n + 1 => bytes.getD off 0 + 256 * readLE bytes (off + 1) n

/-- `slice_check_offset`: `bytes.len() > offset` (the `u64` to `usize`
conversion always succeeds on RV64). -/
def slice_check_offset (bytes : List Nat) (off : Nat) : Bool :=
  decide (off < bytes.length)

/-- `slice_check_range` (the `checked_add` on the `u64` offset cannot
overflow in `Nat`; out-of-range offsets fail the length check). -/
def slice_check_range (bytes : List Nat) (off size : Nat) : Bool :=
  if size < 1 then false else slice_check_offset bytes (off + (size - 1))

/-- `slice_get_range`. -/
def slice_get_range (bytes : List Nat) (off len : Nat) : Option (List Nat) :=
  if slice_check_range bytes off len then some ((bytes.drop off).take len) else none

/-- The fields of `ElfHeader64` read by the loader. -/
structure ElfHeader64 where
  eiMagic : List Nat
  eiClass : Nat
  eiData : Nat
  eiVersion : Nat
  eMachine : Nat
  eVersion : Nat
  ePhoff : Nat
  ePhentsize : Nat
  ePhnum : Nat
deriving DecidableEq, Repr

/-- Decoding of the `repr(packed, C)` `ElfHeader64` from its 64 bytes:
magic at 0 (4 bytes), `ei_class` 4, `ei_data` 5, `ei_version` 6,
`e_machine` at 18 (2), `e_version` at 20 (4), `e_phoff` at 32 (8),
`e_phentsize` at 54 (2), `e_phnum` at 56 (2).  Fields the loader never
reads are omitted. -/
def decodeHeader (h : List Nat) : ElfHeader64 :=
  { eiMagic := [h.getD 0 0, h.getD 1 0, h.getD 2 0, h.getD 3 0]
    eiClass := h.getD 4 0
    eiData := h.getD 5 0
    eiVersion := h.getD 6 0
    eMachine := readLE h 18 2
    eVersion := readLE h 20 4
    ePhoff := readLE h 32 8
    ePhentsize := readLE h 54 2
    ePhnum := readLE h 56 2 }

/-- The fields of `ElfProgramHeader64` read by the loader. -/
structure ElfPH where
  pType : Nat
  pFlags : Nat
  pOffset : Nat
  pVaddr : Nat
  pFilesz : Nat
  pMemsz : Nat
deriving DecidableEq, Repr

/-- Decoding of the 56-byte `repr(packed, C)` `ElfProgramHeader64`:
`p_type` at 0 (4), `p_flags` at 4 (4), `p_offset` at 8 (8), `p_vaddr`
at 16 (8), `p_paddr` at 24 (8, unread), `p_filesz` at 32 (8),
`p_memsz` at 40 (8), `p_align` at 48 (8, unread). -/
def decodePH (b : List Nat) : ElfPH :=
  { pType := readLE b 0 4, pFlags := readLE b 4 4, pOffset := readLE b 8 8,
    pVaddr := readLE b 16 8, pFilesz := readLE b 32 8, pMemsz := readLE b 40 8 }

/-- `enum ElfSegmentPerms`. -/
inductive ElfSegmentPerms where
  | r
  | rw
  | rx
deriving DecidableEq, Repr

/-- `struct ElfSegment`. -/
structure ElfSegment where
  data : List Nat
  vaddr : Nat
  size : Nat
  perms : ElfSegmentPerms
deriving DecidableEq, Repr

/-- `ElfSegment::new` (`PF_R = 4`, `PF_R|PF_W = 6`, `PF_R|PF_X = 5`;
`vaddr.checked_add(size)` fails on `u64` overflow). -/
def ElfSegment.new (data : List Nat) (vaddr size flags : Nat) :
    RResult ElfError ElfSegment :=
  match (if flags = 4 then .ok .r
         else if flags = 6 then .ok .rw
         else if flags = 5 then .ok .rx
         else .err (.unsupportedSegmentFlags flags) :
           RResult ElfError ElfSegmentPerms) with
  | .err e => .err e
  | .ok perms =>
    if W64 ≤ vaddr + size then .err .programHeaderMalformed
    else .ok { data := data, vaddr := vaddr, size := size, perms := perms }

/-- The segment-loading loop of `ElfMap::new`, iterating `i` over the
first `num_segs` program-header indices (`n` is the remaining count;
the `ArrayVec` accumulator cannot overflow its capacity 8 because
`num_segs <= 8`). -/
def loadSegs (bytes phs : List Nat) (phentsize : Nat) :
    Nat → Nat → List ElfSegment → RResult ElfError (List ElfSegment)
  | _, 0, acc => .ok acc
  | i, n + 1, acc =>
    match slice_get_range phs (i * phentsize) phentsize with
    | none => .err .badOffset
    | some phbytes =>
      let ph := decodePH phbytes
      if ph.pType ≠ 1 then loadSegs bytes phs phentsize (i + 1) n acc
      else
        match slice_get_range bytes ph.pOffset ph.pFilesz with
        | none => .err .badOffset
        | some data =>
          match ElfSegment.new data ph.pVaddr ph.pMemsz ph.pFlags with
          | .err e => .err e
          | .ok seg => loadSegs bytes phs phentsize (i + 1) n (acc ++ [seg])

/-- `ElfMap::new`: header slice and checks (`size_of::<ElfHeader64>()
= 64`, `size_of::<ElfProgramHeader64>() = 56` for the packed layouts),
then the program-header table slice and the segment loop over
`min(phnum, ELF_SEGMENTS_MAX = 8)` entries. -/
def ElfMap.new (bytes : List Nat) : RResult ElfError (List ElfSegment) :=
  match slice_get_range bytes 0 64 with
  | none => .err .badOffset
  | some hbytes =>
    let header := decodeHeader hbytes
    if header.eiMagic ≠ [0x7f, 0x45, 0x4c, 0x46] then .err .invalidMagicNumber
    else if header.eiClass ≠ 2 then .err .invalidClass
    else if header.eiData ≠ 1 then .err .invalidEndianness
    else if header.eiVersion ≠ 1 ∨ header.eVersion ≠ 1 then .err .badElfVersion
    else if header.eMachine ≠ 0xf3 then .err .notRiscV
    else if 56 > header.ePhentsize then .err .badEntrySize
    else
      match slice_get_range bytes header.ePhoff (header.ePhnum * header.ePhentsize) with
      | none => .err .badOffset
      | some phs => loadSegs bytes phs header.ePhentsize 0 (min header.ePhnum 8) []

/-- The `p_type` of the `i`-th entry of a program-header table slice. -/
def phTypeAt (phs : List Nat) (phentsize i : Nat) : Nat :=
  (decodePH ((phs.drop (i * phentsize)).take phentsize)).pType

theorem loadSegs_length : ∀ (n : Nat) (bytes phs : List Nat) (phentsize i : Nat)
    (acc segs : List ElfSegment),
    loadSegs bytes phs phentsize i n acc = .ok segs →
    segs.length = acc.length +
      (List.range' i n).countP (fun j => decide (phTypeAt phs phentsize j = 1)) := by
  intro n
  induction n with
  | zero =>
    intro bytes phs phentsize i acc segs h
    injection h with h
    subst h
    simp
  | succ n ih =>
    intro bytes phs phentsize i acc segs h
    rw [loadSegs] at h
    cases hph : slice_get_range phs (i * phentsize) phentsize with
    | none =>
      rw [hph] at h
      cases h
    | some phbytes =>
      simp only [hph] at h
      have hphb : phbytes = (phs.drop (i * phentsize)).take phentsize := by
        rw [slice_get_range] at hph
        split_ifs at hph
        injection hph with hph
        exact hph.symm
      by_cases hty : (decodePH phbytes).pType ≠ 1
      · rw [if_pos hty] at h
        have hrec := ih bytes phs phentsize (i + 1) acc segs h
        rw [hrec, List.range'_succ, List.countP_cons]
        have hpred : decide (phTypeAt phs phentsize i = 1) = false := by
          rw [phTypeAt, ← hphb]
          exact decide_eq_false hty
        simp [hpred]
      · rw [if_neg hty] at h
        push_neg at hty
        cases hdata : slice_get_range bytes (decodePH phbytes).pOffset
            (decodePH phbytes).pFilesz with
        | none =>
          rw [hdata] at h
          cases h
        | some data =>
          simp only [hdata] at h
          cases hseg : ElfSegment.new data (decodePH phbytes).pVaddr
              (decodePH phbytes).pMemsz (decodePH phbytes).pFlags with
          | err e2 =>
            rw [hseg] at h
            cases h
          | ok seg =>
            simp only [hseg] at h
            have hrec := ih bytes phs phentsize (i + 1) (acc ++ [seg]) segs h
            rw [hrec, List.range'_succ, List.countP_cons]
            have hpred : decide (phTypeAt phs phentsize i = 1) = true := by
              rw [phTypeAt, ← hphb]
              exact decide_eq_true hty
            simp [hpred]
            omega

/-- C7 (amended): a program-header entry size below the canonical
RV64 size 56 is rejected with `BadEntrySize` (once the preceding ident,
version and machine checks pass); and an accepted ELF yields exactly
one segment per `PT_LOAD` entry among the FIRST `min(phnum, 8)`
program-header entries — non-`PT_LOAD` entries among those are skipped
but still consume scan slots, and `PT_LOAD` entries beyond index
`min(phnum, 8)` are ignored, so the 8 honored segments are not drawn
from the whole program-header table. -/
theorem elf_new_amended :
    (∀ bytes : List Nat, 64 ≤ bytes.length →
      (decodeHeader (bytes.take 64)).eiMagic = [0x7f, 0x45, 0x4c, 0x46] →
      (decodeHeader (bytes.take 64)).eiClass = 2 →
      (decodeHeader (bytes.take 64)).eiData = 1 →
      (decodeHeader (bytes.take 64)).eiVersion = 1 →
      (decodeHeader (bytes.take 64)).eVersion = 1 →
      (decodeHeader (bytes.take 64)).eMachine = 0xf3 →
      (decodeHeader (bytes.take 64)).ePhentsize < 56 →
      ElfMap.new bytes = .err .badEntrySize) ∧
    (∀ (bytes : List Nat) (segs : List ElfSegment), ElfMap.new bytes = .ok segs →
      ∃ phs, slice_get_range bytes (decodeHeader (bytes.take 64)).ePhoff
          ((decodeHeader (bytes.take 64)).ePhnum * (decodeHeader (bytes.take 64)).ePhentsize) =
          some phs ∧
        segs.length = (List.range (min (decodeHeader (bytes.take 64)).ePhnum 8)).countP
          (fun i => decide (phTypeAt phs (decodeHeader (bytes.take 64)).ePhentsize i = 1))) := by
  have hslice : ∀ bytes : List Nat, 64 ≤ bytes.length →
      slice_get_range bytes 0 64 = some (bytes.take 64) := by
    intro bytes hlen
    rw [slice_get_range, if_pos (by simp [slice_check_range, slice_check_offset]; omega),
      List.drop_zero]
  constructor
  · intro bytes hlen hmagic hclass hdata hver hever hmach hents
    simp only [ElfMap.new, hslice bytes hlen]
    rw [if_neg (by simp [hmagic]), if_neg (by simp [hclass]), if_neg (by simp [hdata]),
      if_neg (by simp [hver, hever]), if_neg (by simp [hmach]), if_pos (by omega)]
  · intro bytes segs h
    cases hsl : slice_get_range bytes 0 64 with
    | none =>
      rw [ElfMap.new, hsl] at h
      cases h
    | some hbytes =>
      have hhb : hbytes = bytes.take 64 := by
        rw [slice_get_range] at hsl
        split_ifs at hsl
        injection hsl with hsl
        rw [← hsl, List.drop_zero]
      subst hhb
      simp only [ElfMap.new, hsl] at h
      split_ifs at h
      cases hps : slice_get_range bytes (decodeHeader (bytes.take 64)).ePhoff
          ((decodeHeader (bytes.take 64)).ePhnum * (decodeHeader (bytes.take 64)).ePhentsize) with
      | none =>
        rw [hps] at h
        cases h
      | some phs =>
        simp only [hps] at h
        refine ⟨phs, rfl, ?_⟩
        have hlen := loadSegs_length _ bytes phs _ 0 [] segs h
        rw [List.range_eq_range']
        simpa using hlen

/-- Byte-serialization helpers for concrete ELF images. -/
def u16le (v : Nat) : List Nat := [v % 256, v / 256 % 256]

def u32le (v : Nat) : List Nat := u16le (v % 65536) ++ u16le (v / 65536)

def u64le (v : Nat) : List Nat := u32le (v % 4294967296) ++ u32le (v / 4294967296)

/-- A valid 64-byte RV64 little-endian ELF header with the given
program-header count and entry size, `e_phoff = 64`. -/
def mkHeader (phnum phentsize : Nat) : List Nat :=
  [0x7f, 0x45, 0x4c, 0x46, 2, 1, 1, 0, 0, 0, 0, 0, 0, 0, 0, 0] ++
  u16le 2 ++ u16le 0xf3 ++ u32le 1 ++
  u64le 0 ++
  u64le 64 ++ u64le 0 ++
  u32le 0 ++ u16le 64 ++
  u16le phentsize ++ u16le phnum ++
  u16le 0 ++ u16le 0 ++ u16le 0

/-- A 56-byte `PT_NULL` program header. -/
def phNull : List Nat :=
  u32le 0 ++ u32le 0 ++ u64le 0 ++ u64le 0 ++ u64le 0 ++ u64le 0 ++ u64le 0 ++ u64le 0

/-- A 56-byte `PT_LOAD` program header: flags `R`, offset 0, file size
1, memory size 4096. -/
def phLoad (vaddr : Nat) : List Nat :=
  u32le 1 ++ u32le 4 ++ u64le 0 ++ u64le vaddr ++ u64le 0 ++ u64le 1 ++ u64le 4096 ++ u64le 0

/-- An ELF image with nine program headers: one `PT_NULL` followed by
eight `PT_LOAD`s. -/
def exElf : List Nat :=
  mkHeader 9 56 ++ phNull ++ phLoad 4096 ++ phLoad 8192 ++ phLoad 12288 ++
    phLoad 16384 ++ phLoad 20480 ++ phLoad 24576 ++ phLoad 28672 ++ phLoad 32768

/-- The number of segments of a successful parse. -/
def segCount : RResult ElfError (List ElfSegment) → Option Nat
  | .ok l => some l.length
  | .err _ => none

set_option maxRecDepth 10000 in
/-- C7 counterexample: `exElf` has eight `PT_LOAD` entries in its
table, but because the loop only scans the first `min(9, 8) = 8`
entries — and the first is `PT_NULL` — only seven segments are honored,
not the eight the claim predicts. -/
theorem elf_new_counterexample :
    segCount (ElfMap.new exElf) = some 7 ∧
    (List.range 9).countP
      (fun i => decide (phTypeAt ((exElf.drop 64).take (9 * 56)) 56 i = 1)) = 8 := by
  decide

/-- An ELF whose header is valid except for `e_phentsize = 55`. -/
def exBad : List Nat := mkHeader 0 55

/-- Witness for the hypotheses of `elf_new_amended`. -/
theorem elf_new_amended_witness : ElfMap.new exBad = .err .badEntrySize :=
  elf_new_amended.1 exBad (by decide) (by decide) (by decide) (by decide) (by decide)
    (by decide) (by decide) (by decide)

end Salus